import Mathlib

/-!
Verification of the Bare / Pkh output-descriptor layer
(`src/src/descriptor/bare.rs`).

The descriptor variants `Bare` and `Pkh` themselves are embedded directly
from the source file.  Their collaborators (the miniscript term type, the
`BareCtx` script context, the checksum codec, the expression-tree parser,
the satisfier capability and the small byte-level helpers from `util.rs`)
are declared or used by the source but their code is not part of `src/`;
each of those is modelled from the specification and marked as such in its
doc comment.

Scripts are byte lists (`List Nat`), descriptor text is a character list
(`List Char`), and every fallible operation returns `Except Error`.
-/

/-- Error kinds of the descriptor layer (spec section 7).  `Unexpected`
carries a message like the source's `Error::Unexpected(String)`;
`MissingSig` carries the encoded queried key. -/
inductive Error where
  | Unexpected (msg : String)
  | MissingSig (pk : List Nat)
  | ContextViolation
  | CouldNotSatisfy
  | ChecksumError
  | ParseError (msg : String)
deriving DecidableEq, Repr

/-- Decides whether a character is an ASCII hexadecimal digit. -/
def isHexDigit (c : Char) : Bool :=
  (48 ≤ c.toNat && c.toNat ≤ 57) ||
  (97 ≤ c.toNat && c.toNat ≤ 102) ||
  (65 ≤ c.toNat && c.toNat ≤ 70)

/-- Modelled from the spec: the abstract key type `Pk` is generic in the
source (outside `src/`); it is instantiated here with its canonical concrete
representative, a 33-byte compressed public key rendered as 66 hex
characters.  Structural equality is equality of the rendered characters. -/
abbrev PubKey := { s : List Char // s.length = 66 ∧ s.all isHexDigit = true }

/-- Modelled from the spec: `Pk::from_str`, the leaf key token parser used
by `expression::terminal`.  Accepts exactly the rendered form of a key. -/
def PubKey.from_str (s : List Char) : Except String PubKey :=
  if h : s.length = 66 ∧ s.all isHexDigit = true then .ok ⟨s, h⟩
  else .error "malformed public key"

/-- Numeric value of a hex digit (junk value 0 on non-digits; callers only
apply it to validated keys). -/
def hexVal (c : Char) : Nat :=
  if 48 ≤ c.toNat ∧ c.toNat ≤ 57 then c.toNat - 48
  else if 97 ≤ c.toNat ∧ c.toNat ≤ 102 then c.toNat - 87
  else if 65 ≤ c.toNat ∧ c.toNat ≤ 70 then c.toNat - 55
  else 0

/-- Decodes consecutive pairs of hex characters into bytes. -/
def decodeHexPairs : List Char → List Nat
  | a :: b :: rest => (16 * hexVal a + hexVal b) :: decodeHexPairs rest
  | _ => []

/-- Modelled from the spec: `pk.to_public_key()` serialisation — the
33-byte encoding of the key. -/
def pkBytes (k : PubKey) : List Nat := decodeHexPairs k.val

/-- Modelled from the spec: an ECDSA signature paired with a sighash byte
(the source's `ElementsSig`).  The DER encoding of a canonical (low-S)
signature is at most 71 bytes, so together with the sighash byte and a
1-byte push opcode a pushed signature occupies at most 73 bytes — the
constant assumed by `max_satisfaction_weight` in the source. -/
structure ElementsSig where
  der : List Nat
  sighash : Nat
  der_le : der.length ≤ 71

/-- Modelled from the spec: the satisfier capability boundary — one query,
"return a signature for key K, if available" (the only `Satisfier` method
the source file uses is `lookup_ecdsa_sig`). -/
def Satisfier := PubKey → Option ElementsSig

/-- Modelled from the spec: `elementssig_to_rawsig` — signature bytes with
the sighash suffix appended. -/
def elementssig_to_rawsig (s : ElementsSig) : List Nat :=
  s.der ++ [s.sighash]

/-- Modelled from the spec: the script builder's data push — each stack
item is prefixed by its own push opcode (one length byte for data up to 75
bytes, `OP_PUSHDATA1/2/4` above that). -/
def pushSlice (d : List Nat) : List Nat :=
  if d.length ≤ 75 then d.length :: d
  else if d.length ≤ 255 then 76 :: d.length :: d
  else if d.length ≤ 65535 then 77 :: (d.length % 256) :: (d.length / 256) :: d
  else 78 :: (d.length % 256) :: (d.length / 256 % 256) ::
       (d.length / 65536 % 256) :: (d.length / 16777216 % 256) :: d

/-- Modelled from the spec: `util::witness_to_scriptsig` — wraps unlock
stack items into a single concatenated legacy unlock script, each item
prefixed by its own push opcode, in order. -/
def witness_to_scriptsig (w : List (List Nat)) : List Nat :=
  (w.map pushSlice).flatten

/-- Modelled from the spec: `util::varint_len` — the byte length of the
Bitcoin-style variable-length integer encoding of `n`. -/
def varint_len (n : Nat) : Nat :=
  if n < 253 then 1
  else if n < 65536 then 3
  else if n < 4294967296 then 5
  else 9

/-- Modelled from the spec: the opaque, pre-validated script term
(`Miniscript<Pk, BareCtx>`), whose own grammar is out of scope.  A
representative fragment set is kept: a single-key check `pk`, the
unsatisfiable constant `0`, and the verify-conjunction `and_v`, which
together exercise satisfiable, unsatisfiable and composite terms. -/
inductive Miniscript where
  | pk (k : PubKey)
  | fls
  | and_v (a b : Miniscript)
deriving DecidableEq

/-- Modelled from the spec: the term's `Display` rendering. -/
def Miniscript.display : Miniscript → List Char
  | .pk k => "pk(".data ++ k.val ++ ")".data
  | .fls => ['0']
  | .and_v a b => "and_v(".data ++ a.display ++ [','] ++ b.display ++ [')']

/-- Modelled from the spec: `Miniscript::encode` — the deterministic
compilation of the term into script bytes (a pushed key followed by
`OP_CHECKSIG` for `pk`, `OP_0` for the unsatisfiable constant,
concatenation for the conjunction). -/
def Miniscript.encode : Miniscript → List Nat
  | .pk k => pushSlice (pkBytes k) ++ [172]
  | .fls => [0]
  | .and_v a b => a.encode ++ b.encode

/-- Modelled from the spec: `Miniscript::max_satisfaction_size` — the
term's worst-case unlock-script byte-length oracle; fails when the term is
structurally unsatisfiable.  A pushed signature costs at most 73 bytes
(push opcode + DER + sighash). -/
def Miniscript.max_satisfaction_size : Miniscript → Except Error Nat
  | .pk _ => .ok 73
  | .fls => .error .CouldNotSatisfy
  | .and_v a b =>
    match a.max_satisfaction_size, b.max_satisfaction_size with
    | .ok x, .ok y => .ok (x + y)
    | .error e, _ => .error e
    | _, .error e => .error e

/-- Modelled from the spec: `Miniscript::satisfy` — the term's own
satisfaction algorithm, producing the unlock stack items. -/
def Miniscript.satisfy (m : Miniscript) (s : Satisfier) :
    Except Error (List (List Nat)) :=
  match m with
  | .pk k =>
    match s k with
    | some sig => .ok [elementssig_to_rawsig sig]
    | none => .error (.MissingSig (pkBytes k))
  | .fls => .error .CouldNotSatisfy
  | .and_v a b =>
    match a.satisfy s, b.satisfy s with
    | .ok wa, .ok wb => .ok (wa ++ wb)
    | .error e, _ => .error e
    | _, .error e => .error e

/-- All keys embedded in a term, in order. -/
def Miniscript.keys : Miniscript → List PubKey
  | .pk k => [k]
  | .fls => []
  | .and_v a b => a.keys ++ b.keys

/-- Modelled from the spec: `Miniscript::translate_pk` — structure
preserving, fallible substitution of every embedded key. -/
def Miniscript.translate_pk {E : Type} (t : PubKey → Except E PubKey) :
    Miniscript → Except E Miniscript
  | .pk k =>
    match t k with
    | .ok k2 => .ok (.pk k2)
    | .error e => .error e
  | .fls => .ok .fls
  | .and_v a b =>
    match a.translate_pk t, b.translate_pk t with
    | .ok a2, .ok b2 => .ok (.and_v a2 b2)
    | .error e, _ => .error e
    | _, .error e => .error e

/-- Modelled from the spec: the bare context's resource limit on the
compiled script size. -/
def MAX_SCRIPT_SIZE : Nat := 10000

/-- Modelled from the spec: `BareCtx::top_level_checks` — the context's
top-level well-formedness gate: it forbids a term whose top-level
operation is unsatisfiable and a term exceeding the context's resource
limit. -/
def BareCtx.top_level_checks (m : Miniscript) : Except Error Unit :=
  match m with
  | .fls => .error .ContextViolation
  | _ => if m.encode.length ≤ MAX_SCRIPT_SIZE then .ok () else .error .ContextViolation

/-- Modelled from the spec: `BareCtx::pk_len` — the byte cost of a pushed
key in legacy script: its encoded length plus the 1-byte push opcode. -/
def BareCtx.pk_len (pk : PubKey) : Nat := (pkBytes pk).length + 1

/-- Modelled from the spec: the 32-character checksum alphabet of the
codec (spec section 4.1). -/
def CHECKSUM_CHARSET : List Char := "qpzry9x8gf2tvdw0s3jn54khce6mua7l".data

/-- Renders one 5-bit checksum symbol through the checksum alphabet. -/
def checksum_symbol (n : Nat) : Char := CHECKSUM_CHARSET.getD (n % 32) 'q'

/-- Modelled from the spec: the polynomial mix of the checksum codec.  The
generator constants of the recurrence are fixed by the format but are not
part of `src/`; a deterministic polynomial accumulator over a 40-bit state
stands in for them.  Every property verified here depends only on the
compute/verify consistency of the codec, not on the constants. -/
def checksum_poly (s : List Char) : Nat :=
  s.foldl (fun acc c => (acc * 1673 + c.toNat + 1) % 1099511627776) 1

/-- Modelled from the spec: `checksum::compute` — the 8-symbol checksum of
a checksum-stripped descriptor body. -/
def descriptor_checksum (s : List Char) : List Char :=
  (List.range 8).map (fun i => checksum_symbol (checksum_poly s / 32 ^ (7 - i)))

/-- Modelled from the spec: `checksum::verify_checksum` — splits the text
at the marker character, recomputes the checksum of the body and fails
with `ChecksumError` when the marker is missing or the checksum does not
match; on success returns the stripped body. -/
def verify_checksum (s : List Char) : Except Error (List Char) :=
  match s.dropWhile (fun c => c ≠ '#') with
  | '#' :: cs =>
    if cs = descriptor_checksum (s.takeWhile (fun c => c ≠ '#')) then
      .ok (s.takeWhile (fun c => c ≠ '#'))
    else .error .ChecksumError
  | _ => .error .ChecksumError

/-- Modelled from the spec: `ELMTS_STR`, the fixed two-character ecosystem
marker distinguishing elements descriptors from the base format. -/
def ELMTS_STR : List Char := "el".data

/-- Modelled from the spec: the generic expression tree — a node has a
name and an ordered sequence of child nodes. -/
inductive expression.Tree where
  | mk (name : List Char) (args : List expression.Tree)

/-- Name component of a tree node. -/
def expression.Tree.name : expression.Tree → List Char
  | .mk n _ => n

/-- Argument list of a tree node. -/
def expression.Tree.args : expression.Tree → List expression.Tree
  | .mk _ a => a

/-- Characters allowed inside a node name (anything but the three
structural symbols of the grammar). -/
def nameChar (c : Char) : Bool := c ≠ '(' && c ≠ ')' && c ≠ ','

mutual

/-- Modelled from the spec: the recursive-descent expression parser for
the grammar `node := name ( node (, node)* ) | name | name ( )`, reading
one node and returning the unconsumed remainder.  The fuel argument
bounds recursion depth; callers supply more fuel than the input length. -/
def parseNode : Nat → List Char → Except Error (expression.Tree × List Char)
  | 0, _ => .error (.ParseError "recursion limit")
  | fuel + 1, s =>
    match s.takeWhile nameChar, s.dropWhile nameChar with
    | [], _ => .error (.ParseError "expected name")
    | nm, '(' :: ')' :: r => .ok (.mk nm [], r)
    | nm, '(' :: r =>
      match parseArgs fuel r with
      | .ok (args, r2) => .ok (.mk nm args, r2)
      | .error e => .error e
    | nm, r => .ok (.mk nm [], r)

/-- Modelled from the spec: parses a comma-separated argument list up to
and including the closing parenthesis. -/
def parseArgs : Nat → List Char → Except Error (List expression.Tree × List Char)
  | 0, _ => .error (.ParseError "recursion limit")
  | fuel + 1, s =>
    match parseNode fuel s with
    | .error e => .error e
    | .ok (t, r) =>
      match r with
      | ',' :: r2 =>
        match parseArgs fuel r2 with
        | .ok (ts, r3) => .ok (t :: ts, r3)
        | .error e => .error e
      | ')' :: r2 => .ok ([t], r2)
      | _ => .error (.ParseError "unmatched parenthesis")

end

/-- Modelled from the spec: `expression::Tree::from_str` — parses one
outermost node and rejects trailing characters. -/
def expression.Tree.from_str (s : List Char) : Except Error expression.Tree :=
  match parseNode (s.length + 1) s with
  | .ok (t, []) => .ok t
  | .ok (_, _ :: _) => .error (.ParseError "trailing characters")
  | .error e => .error e

/-- Modelled from the spec: `Miniscript::from_tree` — the term parser for
the modelled fragment set. -/
def Miniscript.from_tree : expression.Tree → Except Error Miniscript
  | .mk nm [] =>
    if nm = ['0'] then .ok .fls
    else .error (.Unexpected "unknown fragment")
  | .mk nm [.mk ks []] =>
    if nm = "pk".data then
      match PubKey.from_str ks with
      | .ok k => .ok (.pk k)
      | .error e => .error (.Unexpected e)
    else .error (.Unexpected "unknown fragment")
  | .mk nm [a, b] =>
    if nm = "and_v".data then
      match Miniscript.from_tree a, Miniscript.from_tree b with
      | .ok x, .ok y => .ok (.and_v x y)
      | .error e, _ => .error e
      | _, .error e => .error e
    else .error (.Unexpected "unknown fragment")
  | .mk _ _ => .error (.Unexpected "unknown fragment")

/-- The `Bare` descriptor: wraps exactly one validated script term
(`struct Bare { ms: Miniscript<Pk, BareCtx> }`). -/
structure Bare where
  ms : Miniscript
deriving DecidableEq

/-- `Bare::new` — runs the context's top-level checks and wraps the term;
this is the single validation gate. -/
def Bare.new (ms : Miniscript) : Except Error Bare :=
  match BareCtx.top_level_checks ms with
  | .ok _ => .ok ⟨ms⟩
  | .error e => .error e

/-- `Bare::script_pubkey` — compiles the wrapped term; total. -/
def Bare.script_pubkey (b : Bare) : List Nat := b.ms.encode

/-- `Bare::inner_script` — defined in the source as `self.script_pubkey()`. -/
def Bare.inner_script (b : Bare) : List Nat := b.script_pubkey

/-- `Bare::ecdsa_sighash_script_code` — defined in the source as
`self.script_pubkey()`. -/
def Bare.ecdsa_sighash_script_code (b : Bare) : List Nat := b.script_pubkey

/-- `Bare::max_satisfaction_weight` — `4 * (varint_len(S) + S)` for the
term's worst-case satisfaction size `S`, propagating the oracle's error. -/
def Bare.max_satisfaction_weight (b : Bare) : Except Error Nat :=
  match b.ms.max_satisfaction_size with
  | .ok s => .ok (4 * (varint_len s + s))
  | .error e => .error e

/-- `Bare::get_satisfaction` — satisfies the wrapped term, wraps the
unlock stack into a scriptSig and returns an empty witness stack. -/
def Bare.get_satisfaction (b : Bare) (s : Satisfier) :
    Except Error (List (List Nat) × List Nat) :=
  match b.ms.satisfy s with
  | .ok w => .ok ([], witness_to_scriptsig w)
  | .error e => .error e

/-- The `Display` rendering of a `Bare` descriptor: marker, term and
checksum suffix (the source's checksum-wrapping formatter). -/
def Bare.render (b : Bare) : List Char :=
  let body := ELMTS_STR ++ b.ms.display
  body ++ '#' :: descriptor_checksum body

/-- `Bare::from_tree` — requires the root name to begin with the
two-character marker, strips it, parses the remainder as a term, re-runs
the top-level checks and constructs via `Bare::new`. -/
def Bare.from_tree (t : expression.Tree) : Except Error Bare :=
  if ELMTS_STR.isPrefixOf t.name then
    match Miniscript.from_tree (.mk (t.name.drop 2) t.args) with
    | .ok sub =>
      match BareCtx.top_level_checks sub with
      | .ok _ => Bare.new sub
      | .error e => .error e
    | .error e => .error e
  else .error (.Unexpected "Not an elements descriptor")

/-- `Bare::from_str` — verifies and strips the checksum, drops the first
two characters of the body (`&desc_str[2..]`), parses the rest as an
expression tree and forwards to `from_tree`. -/
def Bare.from_str (s : List Char) : Except Error Bare :=
  match verify_checksum s with
  | .ok desc_str =>
    match expression.Tree.from_str (desc_str.drop 2) with
    | .ok top => Bare.from_tree top
    | .error e => .error e
  | .error e => .error e

/-- `<Bare as TranslatePk>::translate_pk` — translates the wrapped term
and re-runs construction.  The source unwraps the re-construction with
`expect("Translation cannot fail inside Bare")`; that panic branch is
modelled as the `none` result. -/
def Bare.translate_pk {E : Type} (b : Bare) (t : PubKey → Except E PubKey) :
    Except E (Option Bare) :=
  match b.ms.translate_pk t with
  | .ok ms2 =>
    match Bare.new ms2 with
    | .ok b2 => .ok (some b2)
    | .error _ => .ok none
  | .error e => .error e

/-- Modelled from the spec: the external key-hash capability used by the
pay-to-key-hash script template.  An executable deterministic 20-byte
digest stands in for the cryptographic hash, which is outside this core. -/
def hash160 (d : List Nat) : List Nat :=
  (List.range 20).map
    (fun i => d.foldl (fun acc b => (acc * 257 + b + 1) % 1461501637330902918203684832716283019655932542976) 7
      / 256 ^ (19 - i) % 256)

/-- The `Pkh` descriptor: wraps exactly one abstract key
(`struct Pkh { pk: Pk }`). -/
structure Pkh where
  pk : PubKey
deriving DecidableEq

/-- `Pkh::new` — total; any key value is valid. -/
def Pkh.new (pk : PubKey) : Pkh := ⟨pk⟩

/-- `Pkh::max_satisfaction_weight` — the fixed formula
`4 * (1 + 73 + BareCtx::pk_len(&self.pk))`; total. -/
def Pkh.max_satisfaction_weight (p : Pkh) : Nat :=
  4 * (1 + 73 + BareCtx.pk_len p.pk)

/-- `Pkh::script_pubkey` — the canonical pay-to-key-hash script for the
key's hash (`OP_DUP OP_HASH160 push20(h) OP_EQUALVERIFY OP_CHECKSIG`),
obtained in the source through `Address::p2pkh(..).script_pubkey()`,
which uses no network-specific data. -/
def Pkh.script_pubkey (p : Pkh) : List Nat :=
  [118, 169] ++ pushSlice (hash160 (pkBytes p.pk)) ++ [136, 172]

/-- `Pkh::inner_script` — defined in the source as `self.script_pubkey()`. -/
def Pkh.inner_script (p : Pkh) : List Nat := p.script_pubkey

/-- `Pkh::ecdsa_sighash_script_code` — defined in the source as
`self.script_pubkey()`. -/
def Pkh.ecdsa_sighash_script_code (p : Pkh) : List Nat := p.script_pubkey

/-- `Pkh::get_satisfaction` — looks up a signature for the wrapped key;
on a hit builds the scriptSig `push(rawsig) ++ push(key)` with an empty
witness stack, on a miss fails with `MissingSig` carrying the queried
key. -/
def Pkh.get_satisfaction (p : Pkh) (s : Satisfier) :
    Except Error (List (List Nat) × List Nat) :=
  match s p.pk with
  | some sig =>
    .ok ([], pushSlice (elementssig_to_rawsig sig) ++ pushSlice (pkBytes p.pk))
  | none => .error (.MissingSig (pkBytes p.pk))

/-- `Pkh::get_satisfaction_mall` — delegates to `get_satisfaction`. -/
def Pkh.get_satisfaction_mall (p : Pkh) (s : Satisfier) :
    Except Error (List (List Nat) × List Nat) :=
  p.get_satisfaction s

/-- The `Display` rendering of a `Pkh` descriptor: `elpkh(<key>)` with the
checksum suffix. -/
def Pkh.render (p : Pkh) : List Char :=
  let body := ELMTS_STR ++ "pkh(".data ++ p.pk.val ++ [')']
  body ++ '#' :: descriptor_checksum body

/-- Modelled from the spec: `expression::terminal` — accepts a leaf node
(no children) and converts its name, mapping a conversion failure to an
`Unexpected` error; a non-leaf node is itself `Unexpected`. -/
def expression.terminal {α : Type} (t : expression.Tree)
    (f : List Char → Except String α) : Except Error α :=
  match t.args with
  | [] =>
    match f t.name with
    | .ok a => .ok a
    | .error e => .error (.Unexpected e)
  | _ => .error (.Unexpected (String.mk t.name))

/-- The error message of the source's `Pkh::from_tree` rejection branch:
`"<name>(<n> args) while parsing pkh descriptor"`. -/
def Pkh.unexpected_msg (t : expression.Tree) : String :=
  String.mk t.name ++ "(" ++ toString t.args.length ++
    " args) while parsing pkh descriptor"

/-- `Pkh::from_tree` — requires root name `elpkh` with exactly one
argument parsed as a leaf key token; every other shape is rejected with
an `Unexpected` error. -/
def Pkh.from_tree (t : expression.Tree) : Except Error Pkh :=
  if t.name = "elpkh".data ∧ t.args.length = 1 then
    match expression.terminal (t.args.getD 0 (.mk [] [])) PubKey.from_str with
    | .ok pk => .ok (Pkh.new pk)
    | .error e => .error e
  else .error (.Unexpected (Pkh.unexpected_msg t))

/-- `Pkh::from_str` — verifies and strips the checksum, parses the whole
body as an expression tree and forwards to `from_tree`. -/
def Pkh.from_str (s : List Char) : Except Error Pkh :=
  match verify_checksum s with
  | .ok desc_str =>
    match expression.Tree.from_str desc_str with
    | .ok top => Pkh.from_tree top
    | .error e => .error e
  | .error e => .error e

/-- `<Pkh as TranslatePk>::translate_pk` — wraps the mapped key; always
succeeds when the mapper does. -/
def Pkh.translate_pk {E : Type} (p : Pkh) (t : PubKey → Except E PubKey) :
    Except E Pkh :=
  match t p.pk with
  | .ok pk2 => .ok (Pkh.new pk2)
  | .error e => .error e

/-- A concrete 33-byte compressed key (66 hex characters). -/
def examplePk : PubKey :=
  ⟨("02" ++ String.mk (List.replicate 64 '0')).data, by decide⟩

/-- A concrete signature: a short DER body with sighash byte 1. -/
def exampleSig : ElementsSig := ⟨[48, 6, 2, 1, 5, 2, 1, 7], 1, by decide⟩

/-- A concrete satisfier that knows the signature for every key. -/
def exampleSatYes : Satisfier := fun _ => some exampleSig

/-- A concrete satisfier that knows no signatures. -/
def exampleSatNo : Satisfier := fun _ => none

/-- A concrete `Bare` descriptor wrapping the term `pk(<examplePk>)`. -/
def exampleBare : Bare := ⟨.pk examplePk⟩

/-- A concrete `Pkh` descriptor wrapping `examplePk`. -/
def examplePkh : Pkh := ⟨examplePk⟩

/-- Equality of `Except` values is decidable when both components are;
used to evaluate the embedded operations at concrete inputs. -/
instance {ε α : Type} [DecidableEq ε] [DecidableEq α] : DecidableEq (Except ε α) :=
  fun x y =>
  match x, y with
  | .ok a, .ok b =>
    if h : a = b then isTrue (by rw [h]) else isFalse (fun hc => by cases hc; exact h rfl)
  | .error a, .error b =>
    if h : a = b then isTrue (by rw [h]) else isFalse (fun hc => by cases hc; exact h rfl)
  | .ok _, .error _ => isFalse (fun hc => Except.noConfusion hc)
  | .error _, .ok _ => isFalse (fun hc => Except.noConfusion hc)

theorem decodeHexPairs_length : ∀ l : List Char, (decodeHexPairs l).length = l.length / 2
  | [] => by simp [decodeHexPairs]
  | [_] => by simp [decodeHexPairs]
  | a :: b :: r => by
    have ih := decodeHexPairs_length r
    simp only [decodeHexPairs, List.length_cons, ih]
    omega

theorem pkBytes_length (k : PubKey) : (pkBytes k).length = 33 := by
  have h := decodeHexPairs_length k.val
  have h2 := k.prop.1
  unfold pkBytes
  omega

theorem pushSlice_length (d : List Nat) (h : d.length ≤ 75) :
    (pushSlice d).length = d.length + 1 := by
  unfold pushSlice
  rw [if_pos h]
  simp

theorem rawsig_length (s : ElementsSig) : (elementssig_to_rawsig s).length ≤ 72 := by
  have h := s.der_le
  simp only [elementssig_to_rawsig, List.length_append, List.length_cons,
    List.length_nil]
  omega

theorem varint_len_mono {a b : Nat} (h : a ≤ b) : varint_len a ≤ varint_len b := by
  unfold varint_len
  split_ifs <;> omega

theorem varint_len_eq_one {n : Nat} (h : n < 253) : varint_len n = 1 := by
  unfold varint_len
  rw [if_pos h]

theorem witness_to_scriptsig_append (a b : List (List Nat)) :
    witness_to_scriptsig (a ++ b) = witness_to_scriptsig a ++ witness_to_scriptsig b := by
  simp [witness_to_scriptsig]

theorem witness_to_scriptsig_single (x : List Nat) :
    witness_to_scriptsig [x] = pushSlice x := by
  simp [witness_to_scriptsig]

/-- Core bound behind the weight claims: whenever the term's satisfaction
algorithm succeeds, the size oracle also succeeds and bounds the byte
length of the wrapped scriptSig. -/
theorem satisfy_size_le (m : Miniscript) :
    ∀ (s : Satisfier) (w : List (List Nat)), m.satisfy s = .ok w →
    ∃ S, m.max_satisfaction_size = .ok S ∧ (witness_to_scriptsig w).length ≤ S := by
  induction m with
  | pk k =>
    intro s w h
    unfold Miniscript.satisfy at h
    cases hs : s k with
    | none => rw [hs] at h; exact absurd h (by simp)
    | some sig =>
      rw [hs] at h
      cases h
      refine ⟨73, rfl, ?_⟩
      have hr := rawsig_length sig
      rw [witness_to_scriptsig_single, pushSlice_length _ (by omega)]
      omega
  | fls =>
    intro s w h
    exact absurd h (by simp [Miniscript.satisfy])
  | and_v a b iha ihb =>
    intro s w h
    unfold Miniscript.satisfy at h
    cases ha : a.satisfy s with
    | error e => rw [ha] at h; exact absurd h (by simp)
    | ok wa =>
      cases hb : b.satisfy s with
      | error e => rw [ha, hb] at h; exact absurd h (by simp)
      | ok wb =>
        rw [ha, hb] at h
        cases h
        obtain ⟨Sa, hSa, hla⟩ := iha s wa ha
        obtain ⟨Sb, hSb, hlb⟩ := ihb s wb hb
        refine ⟨Sa + Sb, ?_, ?_⟩
        · unfold Miniscript.max_satisfaction_size
          rw [hSa, hSb]
        · rw [witness_to_scriptsig_append, List.length_append]
          omega

/-- Key translation is total when the mapper succeeds on every embedded
key. -/
theorem translate_pk_total {E : Type} (t : PubKey → Except E PubKey) (m : Miniscript) :
    (∀ k ∈ m.keys, (t k).isOk = true) → ∃ m2, m.translate_pk t = .ok m2 := by
  induction m with
  | pk k =>
    intro h
    have hk := h k (by simp [Miniscript.keys])
    cases ht : t k with
    | error e => rw [ht] at hk; exact absurd hk (by simp [Except.isOk, Except.toBool])
    | ok k2 => exact ⟨.pk k2, by simp [Miniscript.translate_pk, ht]⟩
  | fls =>
    intro _
    exact ⟨.fls, rfl⟩
  | and_v a b iha ihb =>
    intro h
    obtain ⟨a2, ha⟩ := iha (fun k hk => h k (by simp [Miniscript.keys]; exact Or.inl hk))
    obtain ⟨b2, hb⟩ := ihb (fun k hk => h k (by simp [Miniscript.keys]; exact Or.inr hk))
    exact ⟨.and_v a2 b2, by simp [Miniscript.translate_pk, ha, hb]⟩

/-- Key translation preserves the compiled script's byte length: every
key encodes to the same number of bytes. -/
theorem translate_pk_encode_length {E : Type} (t : PubKey → Except E PubKey) :
    ∀ (m m2 : Miniscript), m.translate_pk t = .ok m2 →
    m2.encode.length = m.encode.length := by
  intro m
  induction m with
  | pk k =>
    intro m2 h
    unfold Miniscript.translate_pk at h
    cases ht : t k with
    | error e => rw [ht] at h; exact absurd h (by simp)
    | ok k2 =>
      rw [ht] at h
      cases h
      simp only [Miniscript.encode, List.length_append]
      rw [pushSlice_length _ (by rw [pkBytes_length]; omega),
        pushSlice_length _ (by rw [pkBytes_length]; omega),
        pkBytes_length, pkBytes_length]
  | fls =>
    intro m2 h
    cases h
    rfl
  | and_v a b iha ihb =>
    intro m2 h
    unfold Miniscript.translate_pk at h
    cases ha : a.translate_pk t with
    | error e => rw [ha] at h; exact absurd h (by simp)
    | ok a2 =>
      cases hb : b.translate_pk t with
      | error e => rw [ha, hb] at h; exact absurd h (by simp)
      | ok b2 =>
        rw [ha, hb] at h
        cases h
        simp only [Miniscript.encode, List.length_append, iha a2 ha, ihb b2 hb]

/-- Key translation preserves the top-level constructor, hence the
context's shape check. -/
theorem translate_pk_ne_fls {E : Type} (t : PubKey → Except E PubKey)
    (m m2 : Miniscript) (h : m.translate_pk t = .ok m2) (hm : m ≠ .fls) :
    m2 ≠ .fls := by
  cases m with
  | pk k =>
    unfold Miniscript.translate_pk at h
    cases ht : t k with
    | error e => rw [ht] at h; exact absurd h (by simp)
    | ok k2 => rw [ht] at h; cases h; exact fun hc => Miniscript.noConfusion hc
  | fls => exact absurd rfl hm
  | and_v a b =>
    unfold Miniscript.translate_pk at h
    cases ha : a.translate_pk t with
    | error e => rw [ha] at h; exact absurd h (by simp)
    | ok a2 =>
      cases hb : b.translate_pk t with
      | error e => rw [ha, hb] at h; exact absurd h (by simp)
      | ok b2 => rw [ha, hb] at h; cases h; exact fun hc => Miniscript.noConfusion hc

/-- The top-level checks only look at the top-level constructor and the
compiled size, both preserved by key translation. -/
theorem top_level_checks_translate {E : Type} (t : PubKey → Except E PubKey)
    (m m2 : Miniscript) (h : m.translate_pk t = .ok m2)
    (hc : BareCtx.top_level_checks m = .ok ()) :
    BareCtx.top_level_checks m2 = .ok () := by
  have hm : m ≠ .fls := by
    intro he
    rw [he] at hc
    exact Except.noConfusion hc
  have hlen := translate_pk_encode_length t m m2 h
  have hsize : m.encode.length ≤ MAX_SCRIPT_SIZE := by
    unfold BareCtx.top_level_checks at hc
    cases m with
    | fls => exact absurd rfl hm
    | pk k =>
      by_contra hgt
      rw [if_neg hgt] at hc
      exact Except.noConfusion hc
    | and_v a b =>
      by_contra hgt
      rw [if_neg hgt] at hc
      exact Except.noConfusion hc
  have hm2 := translate_pk_ne_fls t m m2 h hm
  unfold BareCtx.top_level_checks
  cases m2 with
  | fls => exact absurd rfl hm2
  | pk k => rw [if_pos (by rw [hlen]; exact hsize)]
  | and_v a b => rw [if_pos (by rw [hlen]; exact hsize)]

theorem expression.Tree.name_mk (n : List Char) (a : List expression.Tree) :
    (expression.Tree.mk n a).name = n := rfl

theorem expression.Tree.args_mk (n : List Char) (a : List expression.Tree) :
    (expression.Tree.mk n a).args = a := rfl

set_option maxRecDepth 10000 in
/-- C1: the spec requires `parse(render(D)) == D` for every valid
descriptor of either variant.  For the `Bare` variant the code violates
this on every input: `Bare::from_str` already strips the two-character
marker from the checksum-stripped body before tree parsing, while
`Bare::from_tree` demands the root name start with the marker again, so
parsing any rendered `Bare` descriptor fails.  This theorem evaluates the
code at the concrete failing input `elpk(02..00)#<checksum>`. -/
theorem claim_c1_bare_roundtrip_fails :
    Bare.from_str (Bare.render exampleBare) =
      .error (.Unexpected "Not an elements descriptor") := by decide

/-- C2: `Bare::new` fails exactly when `BareCtx::top_level_checks`
rejects the term (with the same error), and a successfully constructed
`Bare` wraps exactly the checked term and compiles totally: its script
pubkey is the term's encoding, with no further checks or failure. -/
theorem claim_c2_single_validation_gate :
    (∀ (ms : Miniscript) (e : Error),
      Bare.new ms = .error e ↔ BareCtx.top_level_checks ms = .error e) ∧
    (∀ (ms : Miniscript) (b : Bare), Bare.new ms = .ok b →
      b.ms = ms ∧ b.script_pubkey = ms.encode) := by
  constructor
  · intro ms e
    unfold Bare.new
    cases h : BareCtx.top_level_checks ms <;> simp
  · intro ms b h
    unfold Bare.new at h
    cases hc : BareCtx.top_level_checks ms with
    | error e => rw [hc] at h; exact absurd h (by simp)
    | ok u =>
      rw [hc] at h
      cases h
      exact ⟨rfl, rfl⟩

/-- Witness for C2 at concrete inputs: construction of `pk(<key>)`
succeeds and compiles, and construction of the unsatisfiable constant
fails with a context violation. -/
theorem claim_c2_witness :
    ((Bare.mk (.pk examplePk)).ms = .pk examplePk ∧
      (Bare.mk (.pk examplePk)).script_pubkey = (Miniscript.pk examplePk).encode) ∧
    Bare.new .fls = .error .ContextViolation :=
  ⟨claim_c2_single_validation_gate.2 (.pk examplePk) ⟨.pk examplePk⟩ (by decide),
   (claim_c2_single_validation_gate.1 .fls .ContextViolation).mpr (by decide)⟩

/-- C3: `Pkh::get_satisfaction` returns, on a signature hit, `Ok` with an
empty witness stack and the unlock script `push(rawsig) ++ push(key)`;
on a miss it fails with `MissingSig` carrying the queried key — never a
successful empty result. -/
theorem claim_c3_pkh_satisfaction :
    ∀ (p : Pkh) (s : Satisfier),
      (∀ sig, s p.pk = some sig →
        p.get_satisfaction s =
          .ok ([], pushSlice (elementssig_to_rawsig sig) ++ pushSlice (pkBytes p.pk))) ∧
      (s p.pk = none →
        p.get_satisfaction s = .error (.MissingSig (pkBytes p.pk))) := by
  intro p s
  constructor
  · intro sig h
    unfold Pkh.get_satisfaction
    rw [h]
  · intro h
    unfold Pkh.get_satisfaction
    rw [h]

/-- Witness for C3 at concrete inputs: a satisfier holding a signature
yields the pushed signature and key, and an empty satisfier yields the
`MissingSig` error. -/
theorem claim_c3_witness :
    examplePkh.get_satisfaction exampleSatYes =
      .ok ([], pushSlice (elementssig_to_rawsig exampleSig) ++ pushSlice (pkBytes examplePk)) ∧
    examplePkh.get_satisfaction exampleSatNo =
      .error (.MissingSig (pkBytes examplePk)) :=
  ⟨(claim_c3_pkh_satisfaction examplePkh exampleSatYes).1 exampleSig rfl,
   (claim_c3_pkh_satisfaction examplePkh exampleSatNo).2 rfl⟩

/-- C5: `Pkh::max_satisfaction_weight` is total and returns exactly
`4 * (1 + 73 + pk_len)` where `pk_len` is the key's encoded length plus
its push opcode; for the 33-byte keys of this instantiation that is the
satisfier-independent constant 432. -/
theorem claim_c5_pkh_weight_exact :
    ∀ p : Pkh,
      p.max_satisfaction_weight = 4 * (1 + 73 + BareCtx.pk_len p.pk) ∧
      BareCtx.pk_len p.pk = (pkBytes p.pk).length + 1 ∧
      p.max_satisfaction_weight = 432 := by
  intro p
  refine ⟨rfl, rfl, ?_⟩
  unfold Pkh.max_satisfaction_weight BareCtx.pk_len
  rw [pkBytes_length]

/-- C8: the malleable and non-malleable satisfaction entry points of the
single-key variant coincide exactly — `Pkh::get_satisfaction_mall`
delegates to `Pkh::get_satisfaction`. -/
theorem claim_c8_mall_eq_nonmall :
    ∀ (p : Pkh) (s : Satisfier), p.get_satisfaction_mall s = p.get_satisfaction s :=
  fun _ _ => rfl

/-- C10: `inner_script` and `ecdsa_sighash_script_code` each return
exactly `script_pubkey` on both descriptor variants. -/
theorem claim_c10_accessors_coincide :
    (∀ b : Bare, b.inner_script = b.script_pubkey ∧
      b.ecdsa_sighash_script_code = b.script_pubkey) ∧
    (∀ p : Pkh, p.inner_script = p.script_pubkey ∧
      p.ecdsa_sighash_script_code = p.script_pubkey) :=
  ⟨fun _ => ⟨rfl, rfl⟩, fun _ => ⟨rfl, rfl⟩⟩

/-- C4: `max_satisfaction_weight` is a true upper bound on satisfaction
cost for both variants — whenever `get_satisfaction` succeeds with unlock
script `u`, `4 * (varint_len(len u) + len u)` is at most the descriptor's
maximum weight (which, for `Bare`, is then also defined). -/
theorem claim_c4_weight_upper_bound :
    (∀ (b : Bare) (s : Satisfier) (w : List (List Nat)) (u : List Nat),
      b.get_satisfaction s = .ok (w, u) →
      ∃ wt, b.max_satisfaction_weight = .ok wt ∧
        4 * (varint_len u.length + u.length) ≤ wt) ∧
    (∀ (p : Pkh) (s : Satisfier) (w : List (List Nat)) (u : List Nat),
      p.get_satisfaction s = .ok (w, u) →
      4 * (varint_len u.length + u.length) ≤ p.max_satisfaction_weight) := by
  constructor
  · intro b s w u h
    unfold Bare.get_satisfaction at h
    cases hs : b.ms.satisfy s with
    | error e => rw [hs] at h; exact absurd h (by simp)
    | ok w0 =>
      rw [hs] at h
      cases h
      obtain ⟨S, hS, hle⟩ := satisfy_size_le b.ms s w0 hs
      refine ⟨4 * (varint_len S + S), ?_, ?_⟩
      · unfold Bare.max_satisfaction_weight
        rw [hS]
      · have hv := varint_len_mono hle
        omega
  · intro p s w u h
    unfold Pkh.get_satisfaction at h
    cases hs : s p.pk with
    | none => rw [hs] at h; exact absurd h (by simp)
    | some sig =>
      rw [hs] at h
      cases h
      have hr := rawsig_length sig
      have hk := pkBytes_length p.pk
      have hlu : (pushSlice (elementssig_to_rawsig sig) ++ pushSlice (pkBytes p.pk)).length ≤ 107 := by
        rw [List.length_append, pushSlice_length _ (by omega),
          pushSlice_length _ (by omega)]
        omega
      rw [varint_len_eq_one (by omega)]
      unfold Pkh.max_satisfaction_weight BareCtx.pk_len
      omega

/-- Witness for C4 at concrete inputs: both bounds instantiated with a
concrete key, signature and satisfier. -/
theorem claim_c4_witness :
    (∃ wt, exampleBare.max_satisfaction_weight = .ok wt ∧
      4 * (varint_len (witness_to_scriptsig [elementssig_to_rawsig exampleSig]).length +
        (witness_to_scriptsig [elementssig_to_rawsig exampleSig]).length) ≤ wt) ∧
    4 * (varint_len (pushSlice (elementssig_to_rawsig exampleSig) ++
          pushSlice (pkBytes examplePk)).length +
        (pushSlice (elementssig_to_rawsig exampleSig) ++
          pushSlice (pkBytes examplePk)).length) ≤
      examplePkh.max_satisfaction_weight :=
  ⟨claim_c4_weight_upper_bound.1 exampleBare exampleSatYes []
      (witness_to_scriptsig [elementssig_to_rawsig exampleSig]) rfl,
   claim_c4_weight_upper_bound.2 examplePkh exampleSatYes []
      (pushSlice (elementssig_to_rawsig exampleSig) ++ pushSlice (pkBytes examplePk)) rfl⟩

/-- C6: `Bare::max_satisfaction_weight` returns exactly
`4 * (varint_len(S) + S)` for the term's worst-case size `S` and fails
exactly when the term's size oracle fails; the oracle only fails on
structurally unsatisfiable terms — no satisfier can then satisfy the
term. -/
theorem claim_c6_bare_weight_formula :
    ∀ b : Bare,
      b.max_satisfaction_weight =
        Except.map (fun S => 4 * (varint_len S + S)) b.ms.max_satisfaction_size ∧
      (∀ e, b.ms.max_satisfaction_size = .error e →
        ∀ s : Satisfier, (b.ms.satisfy s).isOk = false) := by
  intro b
  constructor
  · unfold Bare.max_satisfaction_weight
    cases h : b.ms.max_satisfaction_size <;> simp [Except.map]
  · intro e he s
    cases hs : b.ms.satisfy s with
    | error e2 => rfl
    | ok w =>
      obtain ⟨S, hS, _⟩ := satisfy_size_le b.ms s w hs
      rw [he] at hS
      exact absurd hS (by simp)

/-- Witness for C6 at a concrete input: the unsatisfiable constant, whose
weight computation fails and which no satisfier can satisfy. -/
theorem claim_c6_witness :
    (Bare.mk .fls).max_satisfaction_weight =
      Except.map (fun S => 4 * (varint_len S + S)) (Miniscript.fls.max_satisfaction_size) ∧
    (Miniscript.fls.satisfy exampleSatNo).isOk = false :=
  ⟨(claim_c6_bare_weight_formula ⟨.fls⟩).1,
   (claim_c6_bare_weight_formula ⟨.fls⟩).2 .CouldNotSatisfy rfl exampleSatNo⟩

/-- C9: translating a validly constructed `Bare` with a mapper that
succeeds on every embedded key always succeeds, and the re-run
construction check on the translated term never fails — the source's
`expect` (the modelled `none` result) is unreachable, so translation
surfaces no context violation. -/
theorem claim_c9_translate_never_panics :
    ∀ {E : Type} (b : Bare) (t : PubKey → Except E PubKey),
      BareCtx.top_level_checks b.ms = .ok () →
      (∀ k ∈ b.ms.keys, (t k).isOk = true) →
      ∃ b2, b.translate_pk t = .ok (some b2) := by
  intro E b t hc hk
  obtain ⟨m2, hm2⟩ := translate_pk_total t b.ms hk
  have hc2 := top_level_checks_translate t b.ms m2 hm2 hc
  refine ⟨⟨m2⟩, ?_⟩
  unfold Bare.translate_pk
  rw [hm2]
  simp [Bare.new, hc2]

/-- Witness for C9 at concrete inputs: the identity mapper on the
`pk(<key>)` descriptor translates without reaching the panic branch. -/
theorem claim_c9_witness :
    ∃ b2, exampleBare.translate_pk (fun k => (.ok k : Except String PubKey)) =
      .ok (some b2) :=
  claim_c9_translate_never_panics exampleBare
    (fun k => (.ok k : Except String PubKey)) (by decide) (by decide)

/-- C7: `Pkh::from_tree` succeeds exactly on a root named `elpkh` with a
single argument that parses as a leaf key token, and every other tree
shape (wrong name, wrong argument count, non-leaf argument, malformed
key) fails with an `Unexpected` error. -/
theorem claim_c7_pkh_from_tree :
    ∀ t : expression.Tree,
      ((∃ p, Pkh.from_tree t = .ok p) ↔
        (t.name = "elpkh".data ∧
          ∃ ks, t.args = [.mk ks []] ∧ (PubKey.from_str ks).isOk = true)) ∧
      ((¬ ∃ p, Pkh.from_tree t = .ok p) →
        ∃ msg, Pkh.from_tree t = .error (.Unexpected msg)) := by
  intro t
  obtain ⟨nm, args⟩ := t
  by_cases h1 : nm = "elpkh".data
  case neg =>
    have hval : Pkh.from_tree (.mk nm args) =
        .error (.Unexpected (Pkh.unexpected_msg (.mk nm args))) := by
      unfold Pkh.from_tree
      rw [if_neg]
      intro hcc
      rw [expression.Tree.name_mk] at hcc
      exact h1 hcc.1
    refine ⟨?_, fun _ => ⟨_, hval⟩⟩
    constructor
    · rintro ⟨p, hp⟩
      rw [hval] at hp
      exact absurd hp (by simp)
    · rintro ⟨h1', _⟩
      rw [expression.Tree.name_mk] at h1'
      exact absurd h1' h1
  case pos =>
    subst h1
    cases args with
    | nil =>
      have hval : Pkh.from_tree (.mk "elpkh".data []) =
          .error (.Unexpected (Pkh.unexpected_msg (.mk "elpkh".data []))) := by
        unfold Pkh.from_tree
        rw [if_neg]
        intro hcc
        exact absurd hcc.2 (by simp [expression.Tree.args_mk])
      refine ⟨?_, fun _ => ⟨_, hval⟩⟩
      constructor
      · rintro ⟨p, hp⟩
        rw [hval] at hp
        exact absurd hp (by simp)
      · rintro ⟨_, ks, h2', _⟩
        rw [expression.Tree.args_mk] at h2'
        exact List.noConfusion h2'
    | cons a args2 =>
      cases args2 with
      | cons b args3 =>
        have hval : Pkh.from_tree (.mk "elpkh".data (a :: b :: args3)) =
            .error (.Unexpected (Pkh.unexpected_msg (.mk "elpkh".data (a :: b :: args3)))) := by
          unfold Pkh.from_tree
          rw [if_neg]
          intro hcc
          have h2 := hcc.2
          rw [expression.Tree.args_mk] at h2
          simp at h2
        refine ⟨?_, fun _ => ⟨_, hval⟩⟩
        constructor
        · rintro ⟨p, hp⟩
          rw [hval] at hp
          exact absurd hp (by simp)
        · rintro ⟨_, ks, h2', _⟩
          rw [expression.Tree.args_mk] at h2'
          simp at h2'
      | nil =>
        obtain ⟨ks, kargs⟩ := a
        cases kargs with
        | cons x xs =>
          have hval : Pkh.from_tree (.mk "elpkh".data [.mk ks (x :: xs)]) =
              .error (.Unexpected (String.mk ks)) := by
            unfold Pkh.from_tree expression.terminal
            simp only [expression.Tree.name_mk, expression.Tree.args_mk,
              List.length_cons, List.length_nil, List.getD_cons_zero, and_self,
              if_true]
          refine ⟨?_, fun _ => ⟨_, hval⟩⟩
          constructor
          · rintro ⟨p, hp⟩
            rw [hval] at hp
            exact absurd hp (by simp)
          · rintro ⟨_, ks2, h2', _⟩
            rw [expression.Tree.args_mk] at h2'
            simp at h2'
        | nil =>
          cases hf : PubKey.from_str ks with
          | ok k =>
            have hval : Pkh.from_tree (.mk "elpkh".data [.mk ks []]) =
                .ok (Pkh.new k) := by
              unfold Pkh.from_tree expression.terminal
              simp only [expression.Tree.name_mk, expression.Tree.args_mk,
                List.length_cons, List.length_nil, List.getD_cons_zero, and_self,
                if_true, hf]
            refine ⟨?_, fun hn => absurd ⟨Pkh.new k, hval⟩ hn⟩
            constructor
            · intro _
              refine ⟨rfl, ks, rfl, ?_⟩
              rw [hf]
              rfl
            · intro _
              exact ⟨Pkh.new k, hval⟩
          | error err =>
            have hval : Pkh.from_tree (.mk "elpkh".data [.mk ks []]) =
                .error (.Unexpected err) := by
              unfold Pkh.from_tree expression.terminal
              simp only [expression.Tree.name_mk, expression.Tree.args_mk,
                List.length_cons, List.length_nil, List.getD_cons_zero, and_self,
                if_true, hf]
            refine ⟨?_, fun _ => ⟨_, hval⟩⟩
            constructor
            · rintro ⟨p, hp⟩
              rw [hval] at hp
              exact absurd hp (by simp)
            · rintro ⟨_, ks2, h2', h3'⟩
              rw [expression.Tree.args_mk] at h2'
              have hks : ks = ks2 := by
                simpa using h2'
              rw [← hks, hf] at h3'
              exact absurd h3' (by simp [Except.isOk, Except.toBool])

/-- Witness for C7 at a concrete input: a tree with the wrong root name
is rejected with an `Unexpected` error. -/
theorem claim_c7_witness :
    ∃ msg, Pkh.from_tree (.mk "foo".data []) = .error (.Unexpected msg) :=
  (claim_c7_pkh_from_tree (.mk "foo".data [])).2
    (fun h =>
      absurd ((claim_c7_pkh_from_tree (.mk "foo".data [])).1.mp h).1 (by decide))
